import Mathlib

/-!
Verification development for the crab repository core: the powerset combinator
domain, the interleaved forward fixpoint iterator, and the term-equivalence
(anti-unification) abstract domain.  Each definition is a shallow embedding of
the corresponding C++ function; the C++ source location is given in the doc
comment of each definition.
-/

/-- Binary operations of the term domain (operation_t: OP_ADDITION,
OP_SUBTRACTION, OP_MULTIPLICATION, OP_DIVISION).  Also reused to stand for the
arithmetic operation enum of the powerset base-domain interface. -/
inductive TOp where
  | add
  | sub
  | mul
  | div
deriving DecidableEq, Repr

/-- Base-domain interface consumed by powerset_domain (the template parameter
Domain of powerset_domain in fwd_fixpoint_iterators.hpp).  D is the state
type, V variable names, E linear expressions, C linear constraint systems.
Every field corresponds to one base-domain method used by the powerset code. -/
structure PsDom (D : Type) (V : Type) (E : Type) (C : Type) where
  bot : D
  top : D
  isBot : D → Bool
  isTop : D → Bool
  join : D → D → D
  meet : D → D → D
  leq : D → D → Bool
  assign : V → E → D → D
  applyOp : TOp → V → V → V → D → D
  addCsts : C → D → D
  cstIsTrue : C → Bool
  cstIsFalse : C → Bool

/-- powerset_domain::is_bottom: true iff every disjunct is bottom (an empty
vector therefore counts as bottom). -/
def psIsBot {D V E C : Type} (B : PsDom D V E C) (ds : List D) : Bool :=
  ds.all B.isBot

/-- powerset_domain::is_top: true iff some disjunct is top. -/
def psIsTop {D V E C : Type} (B : PsDom D V E C) (ds : List D) : Bool :=
  ds.any B.isTop

/-- powerset_domain::normalize_if_top: if some disjunct is top, set_to_top
(the vector becomes the single element top). -/
def psNormalizeIfTop {D V E C : Type} (B : PsDom D V E C) (ds : List D) : List D :=
  if ds.any B.isTop then [B.top] else ds

/-- powerset_domain::smash_disjuncts (mutating overload): if the state is
bottom, set_to_bottom; else if top, set_to_top; then fold all disjuncts with
the base-domain join into a single element. -/
def psSmash {D V E C : Type} (B : PsDom D V E C) (ds : List D) : List D :=
  let ds := if psIsBot B ds then [B.bot]
            else if psIsTop B ds then [B.top]
            else ds
  match ds with
  | [] => []
  | d :: rest => [rest.foldl B.join d]

/-- The private constructor powerset_domain(base_dom_vector): normalize_if_top
then smash when the number of disjuncts exceeds Params::max_disjuncts. -/
def psOfVec {D V E C : Type} (B : PsDom D V E C) (maxDisjuncts : Nat) (ds : List D) : List D :=
  let ds := psNormalizeIfTop B ds
  if ds.length > maxDisjuncts then psSmash B ds else ds

/-- powerset_domain::powerset_meet_with: the exact meet.  If either side is
bottom the result is the bottom singleton; if one side is top the other side
is returned; otherwise all pairwise base-domain meets are collected, dropping
those that are bottom, and the result vector goes through the vector
constructor (normalize_if_top and the max_disjuncts check). -/
def powersetMeetWith {D V E C : Type} (B : PsDom D V E C) (maxDisjuncts : Nat)
    (a b : List D) : List D :=
  if psIsBot B a || psIsBot B b then [B.bot]
  else if psIsTop B a then b
  else if psIsTop B b then a
  else
    let res := a.foldl
      (fun acc x => acc ++ (b.map (fun y => B.meet x y)).filter (fun m => !B.isBot m)) []
    psOfVec B maxDisjuncts res

/-- powerset_domain::operator+= on a linear constraint system: early return
when the state is bottom or the system is trivially true; set_to_bottom
(without returning) when the system is trivially false; then add the system to
every disjunct and keep only the disjuncts that did not become bottom. -/
def psAddCsts {D V E C : Type} (B : PsDom D V E C) (c : C) (ds : List D) : List D :=
  if psIsBot B ds || B.cstIsTrue c then ds
  else
    let ds := if B.cstIsFalse c then [B.bot] else ds
    (ds.map (fun d => B.addCsts c d)).filter (fun d => !B.isBot d)

/-- powerset_domain::assign: when the state is not bottom, assign in every
disjunct; no disjunct is dropped and no top normalization is performed. -/
def psAssign {D V E C : Type} (B : PsDom D V E C) (x : V) (e : E) (ds : List D) : List D :=
  if psIsBot B ds then ds else ds.map (B.assign x e)

/-- powerset_domain::apply on an arithmetic op with three variables: when the
state is not bottom, apply in every disjunct; no disjunct is dropped and no
top normalization is performed. -/
def psApply {D V E C : Type} (B : PsDom D V E C) (op : TOp) (x y z : V) (ds : List D) : List D :=
  if psIsBot B ds then ds else ds.map (B.applyOp op x y z)

/-! A small concrete base domain used to evaluate the powerset code on
concrete inputs: a box over two program variables whose components are a
three-valued interval lattice (bottom, a single point, top). -/

/-- Component lattice: bottom, a single integer point, or top. -/
inductive SItv where
  | sbot
  | stop
  | spt (n : Int)
deriving DecidableEq, Repr

def sIsBot : SItv → Bool
  | .sbot => true
  | _ => false

def sIsTop : SItv → Bool
  | .stop => true
  | _ => false

def sMeet : SItv → SItv → SItv
  | .sbot, _ => .sbot
  | _, .sbot => .sbot
  | .stop, y => y
  | x, .stop => x
  | .spt a, .spt b => if a = b then .spt a else .sbot

def sJoin : SItv → SItv → SItv
  | .sbot, y => y
  | x, .sbot => x
  | .stop, _ => .stop
  | _, .stop => .stop
  | .spt a, .spt b => if a = b then .spt a else .stop

def sLeq : SItv → SItv → Bool
  | .sbot, _ => true
  | _, .stop => true
  | .spt a, .spt b => a = b
  | _, _ => false

/-- A box over two variables (indices 0 and 1). -/
abbrev BoxD := SItv × SItv

/-- Expressions over the box: a variable or an integer constant. -/
inductive BExp where
  | bvar (i : Nat)
  | bconst (n : Int)
deriving DecidableEq, Repr

def bEval (e : BExp) (d : BoxD) : SItv :=
  match e with
  | .bvar i => if i = 0 then d.1 else d.2
  | .bconst n => .spt n

def boxIsBot (d : BoxD) : Bool := sIsBot d.1 || sIsBot d.2

def boxIsTop (d : BoxD) : Bool := sIsTop d.1 && sIsTop d.2

def boxMeet (a b : BoxD) : BoxD := (sMeet a.1 b.1, sMeet a.2 b.2)

def boxJoin (a b : BoxD) : BoxD := (sJoin a.1 b.1, sJoin a.2 b.2)

def boxAssign (v : Nat) (e : BExp) (d : BoxD) : BoxD :=
  if v = 0 then (bEval e d, d.2) else (d.1, bEval e d)

/-- The box instantiated as a powerset base domain.  Constraint systems are
modelled as boxes added by meet; a system is trivially true when it is the top
box and trivially false when it is a bottom box. -/
def BoxPs : PsDom BoxD Nat BExp BoxD where
  bot := (.sbot, .sbot)
  top := (.stop, .stop)
  isBot := boxIsBot
  isTop := boxIsTop
  join := boxJoin
  meet := boxMeet
  leq := fun a b => sLeq a.1 b.1 && sLeq a.2 b.2
  assign := boxAssign
  applyOp := fun _ _ _ _ d => d
  addCsts := fun c d => boxMeet c d
  cstIsTrue := fun c => boxIsTop c
  cstIsFalse := fun c => boxIsBot c

/-- C1: the exact meet of the two non-bottom, non-top powerset states
whose only disjuncts are the boxes with first component 0 and 1 produces the
empty disjunct vector, and so does adding a constraint that contradicts the
single disjunct; the code comment of powerset_domain states that the empty
powerset is never represented. -/
theorem c1_powerset_empty_vector :
    psIsBot BoxPs [((SItv.spt 0), SItv.stop)] = false ∧
    psIsTop BoxPs [((SItv.spt 0), SItv.stop)] = false ∧
    psIsBot BoxPs [((SItv.spt 1), SItv.stop)] = false ∧
    psIsTop BoxPs [((SItv.spt 1), SItv.stop)] = false ∧
    powersetMeetWith BoxPs 99999 [((SItv.spt 0), SItv.stop)] [((SItv.spt 1), SItv.stop)] = [] ∧
    psAddCsts BoxPs ((SItv.spt 1), SItv.stop) [((SItv.spt 0), SItv.stop)] = [] := by
  decide

/-- C5 counterexample: a non-bottom, non-top powerset state of two disjuncts
on which assign makes every disjunct top; the resulting disjunct sequence is
the two-element sequence of top boxes, not the single-element sequence
containing top, so assign does not normalize a top disjunct to the whole
state being the singleton top. -/
theorem c5_assign_no_top_normalization :
    psIsBot BoxPs [((SItv.spt 0), SItv.stop), ((SItv.spt 1), SItv.stop)] = false ∧
    psIsTop BoxPs [((SItv.spt 0), SItv.stop), ((SItv.spt 1), SItv.stop)] = false ∧
    psIsTop BoxPs (psAssign BoxPs 0 (BExp.bvar 1)
      [((SItv.spt 0), SItv.stop), ((SItv.spt 1), SItv.stop)]) = true ∧
    psAssign BoxPs 0 (BExp.bvar 1)
      [((SItv.spt 0), SItv.stop), ((SItv.spt 1), SItv.stop)] ≠ [BoxPs.top] := by
  decide

/-- C5 (amended): when the disjunct sequence is non-empty and contains no
bottom disjunct, operator+= leaves no bottom disjunct in the result, whereas
assign and apply perform the base operation elementwise with no
post-normalization at all (they are exactly the elementwise map). -/
theorem c5_elementwise_ops {D V E C : Type} (B : PsDom D V E C) (c : C)
    (x y z : V) (e : E) (op : TOp) (ds : List D)
    (h1 : ∀ d ∈ ds, B.isBot d = false) (h2 : ds ≠ []) :
    (∀ d ∈ psAddCsts B c ds, B.isBot d = false) ∧
    psAssign B x e ds = ds.map (B.assign x e) ∧
    psApply B op x y z ds = ds.map (B.applyOp op x y z) := by
  have hnb : psIsBot B ds = false := by
    cases ds with
    | nil => exact absurd rfl h2
    | cons d rest =>
      simp only [psIsBot, List.all_cons, Bool.and_eq_false_iff]
      left
      exact h1 d (List.mem_cons_self d rest)
  refine ⟨?_, ?_, ?_⟩
  · intro d hd
    unfold psAddCsts at hd
    rw [hnb] at hd
    simp only [Bool.false_or] at hd
    by_cases ht : B.cstIsTrue c
    · rw [if_pos ht] at hd
      exact h1 d hd
    · rw [if_neg ht] at hd
      simp only [List.mem_filter, Bool.not_eq_true'] at hd
      exact hd.2
  · unfold psAssign
    rw [hnb]
    simp
  · unfold psApply
    rw [hnb]
    simp

/-- C5 amended witness at a concrete state. -/
theorem c5_elementwise_ops_witness :
    (∀ d ∈ psAddCsts BoxPs ((SItv.spt 1), SItv.stop) [((SItv.spt 0), SItv.stop)],
      BoxPs.isBot d = false) ∧
    psAssign BoxPs 0 (BExp.bconst 3) [((SItv.spt 0), SItv.stop)]
      = [((SItv.spt 0), SItv.stop)].map (BoxPs.assign 0 (BExp.bconst 3)) ∧
    psApply BoxPs TOp.add 0 0 1 [((SItv.spt 0), SItv.stop)]
      = [((SItv.spt 0), SItv.stop)].map (BoxPs.applyOp TOp.add 0 0 1) :=
  c5_elementwise_ops BoxPs ((SItv.spt 1), SItv.stop) 0 0 1 (BExp.bconst 3) TOp.add
    [((SItv.spt 0), SItv.stop)] (by decide) (by decide)

/-!
The interleaved forward fixpoint iterator
(ikos::interleaved_fwd_fixpoint_iterator in fwd_fixpoint_iterators.hpp).
The abstract value type A and the jump-set type T are parameters, as are the
base lattice operations the iterator calls.
-/

/-- Configuration of interleaved_fwd_fixpoint_iterator: the lattice operations
on abstract values, the widening threshold, the jump-set size given to the
constructor, and the jump set itself.  The constructor sets
_use_widening_jump_set to jump_set_size > 0. -/
structure IterCfg (A T : Type) where
  join : A → A → A
  widen : A → A → A
  wideningThresholds : A → A → T → A
  wideningThreshold : Nat
  jumpSetSize : Nat
  jumpSet : T

/-- The flag _use_widening_jump_set computed by the constructor. -/
def useWideningJumpSet {A T : Type} (cfg : IterCfg A T) : Bool :=
  cfg.jumpSetSize > 0

/-- interleaved_fwd_fixpoint_iterator::extrapolate: ordinary join while the
iteration count is at most the widening threshold; beyond it, threshold
widening when the jump set is in use, plain widening otherwise. -/
def extrapolate {A T : Type} (cfg : IterCfg A T) (iteration : Nat) (before after : A) : A :=
  if iteration ≤ cfg.wideningThreshold then cfg.join before after
  else if useWideningJumpSet cfg then cfg.wideningThresholds before after cfg.jumpSet
  else cfg.widen before after

/-- interleaved_fwd_fixpoint_iterator::refine: meet on the first narrowing
iteration, narrowing afterwards. -/
def refineStep {A : Type} (meet narrow : A → A → A) (iteration : Nat) (before after : A) : A :=
  if iteration = 1 then meet before after else narrow before after

/-- C7: extrapolate returns the join when the iteration is at most the
widening threshold; otherwise it returns threshold widening when the jump-set
size is positive and the plain widening when it is zero. -/
theorem c7_extrapolate_cases {A T : Type} (cfg : IterCfg A T) (i : Nat) (a b : A) :
    (i ≤ cfg.wideningThreshold → extrapolate cfg i a b = cfg.join a b) ∧
    (i > cfg.wideningThreshold → cfg.jumpSetSize > 0 →
      extrapolate cfg i a b = cfg.wideningThresholds a b cfg.jumpSet) ∧
    (i > cfg.wideningThreshold → cfg.jumpSetSize = 0 →
      extrapolate cfg i a b = cfg.widen a b) := by
  refine ⟨?_, ?_, ?_⟩
  · intro h
    unfold extrapolate
    rw [if_pos h]
  · intro h hj
    unfold extrapolate useWideningJumpSet
    rw [if_neg (by omega), if_pos (by simpa using hj)]
  · intro h hj
    unfold extrapolate useWideningJumpSet
    rw [if_neg (by omega), if_neg (by simp [hj])]

/-- Concrete iterator configuration over natural numbers with a jump set. -/
def natCfgJump : IterCfg Nat Nat where
  join := Nat.max
  widen := fun _ b => b + 1
  wideningThresholds := fun _ b t => b + t
  wideningThreshold := 2
  jumpSetSize := 1
  jumpSet := 10

/-- Concrete iterator configuration over natural numbers without a jump set. -/
def natCfgNoJump : IterCfg Nat Nat where
  join := Nat.max
  widen := fun _ b => b + 1
  wideningThresholds := fun _ b t => b + t
  wideningThreshold := 2
  jumpSetSize := 0
  jumpSet := 0

/-- C7 witness: the three cases of extrapolate evaluated at concrete
configurations and iteration counts. -/
theorem c7_extrapolate_cases_witness :
    extrapolate natCfgJump 1 4 7 = natCfgJump.join 4 7 ∧
    extrapolate natCfgJump 5 4 7 = natCfgJump.wideningThresholds 4 7 natCfgJump.jumpSet ∧
    extrapolate natCfgNoJump 5 4 7 = natCfgNoJump.widen 4 7 :=
  ⟨(c7_extrapolate_cases natCfgJump 1 4 7).1 (by decide),
   (c7_extrapolate_cases natCfgJump 5 4 7).2.1 (by decide) (by decide),
   (c7_extrapolate_cases natCfgNoJump 5 4 7).2.2 (by decide) (by decide)⟩

/-- Parameters of the decreasing (narrowing) loop in
wto_iterator::visit(wto_cycle_t&).  E is the state of the invariant tables
(pre and post) together with anything the analyzer callbacks touch; A is the
abstract value type.  analyzeBody performs set_post(head, analyze(head, pre))
followed by the recursive visit of the cycle body; gatherPre joins the post
states of all predecessors of the head; refineOp is
interleaved_fwd_fixpoint_iterator::refine; setPre stores the pre value of the
head; nIters is _narrowing_iterations. -/
structure NarrowCfg (A E : Type) where
  analyzeBody : E → A → E
  gatherPre : E → A
  leq : A → A → Bool
  refineOp : Nat → A → A → A
  setPre : E → A → E
  nIters : Nat

/-- Result of the decreasing loop: final environment and pre value, the
number of loop iterations executed (each performing one transfer of the head
and one body visit) and the number of refine steps performed. -/
structure NarrowResult (A E : Type) where
  env : E
  pre : A
  iters : Nat
  refines : Nat

/-- The decreasing iteration sequence with narrowing of
wto_iterator::visit(wto_cycle_t&), lines 263-281: at iteration j compute the
post of the head and visit the body, gather the new pre; stop if pre is below
the new pre; otherwise stop if j exceeds the narrowing-iteration cap, else
refine pre and store it, and continue with j+1.  Termination of this
definition is exactly the cap argument: the recursion is bounded by
nIters + 1 - j. -/
def descendingLoop {A E : Type} (P : NarrowCfg A E) (j : Nat) (e : E) (pre : A) :
    NarrowResult A E :=
  if P.leq pre (P.gatherPre (P.analyzeBody e pre)) then
    { env := P.analyzeBody e pre, pre := pre, iters := 1, refines := 0 }
  else if _h : j > P.nIters then
    { env := P.analyzeBody e pre, pre := pre, iters := 1, refines := 0 }
  else
    let pre2 := P.refineOp j pre (P.gatherPre (P.analyzeBody e pre))
    let r := descendingLoop P (j + 1) (P.setPre (P.analyzeBody e pre) pre2) pre2
    { env := r.env, pre := r.pre, iters := r.iters + 1, refines := r.refines + 1 }
termination_by P.nIters + 1 - j
decreasing_by omega

/-- Helper bound for the decreasing loop: when k + j = narrowing_iterations
plus one (k is the remaining budget before the cap), the loop performs at
most k + 1 iterations and at most k refine steps. -/
theorem descendingLoop_bounds {A E : Type} (P : NarrowCfg A E) :
    ∀ (k j : Nat) (e : E) (pre : A), 1 ≤ j → k + j = P.nIters + 1 →
      (descendingLoop P j e pre).iters ≤ k + 1 ∧
      (descendingLoop P j e pre).refines ≤ k := by
  intro k
  induction k with
  | zero =>
    intro j e pre hj hk
    unfold descendingLoop
    by_cases hs : P.leq pre (P.gatherPre (P.analyzeBody e pre))
    · rw [if_pos hs]
      refine ⟨?_, ?_⟩ <;> simp
    · rw [if_neg hs, dif_pos (by omega)]
      refine ⟨?_, ?_⟩ <;> simp
  | succ k ih =>
    intro j e pre hj hk
    unfold descendingLoop
    by_cases hs : P.leq pre (P.gatherPre (P.analyzeBody e pre))
    · rw [if_pos hs]
      refine ⟨?_, ?_⟩ <;> simp
    · rw [if_neg hs]
      by_cases hcap : j > P.nIters
      · rw [dif_pos hcap]
        refine ⟨?_, ?_⟩ <;> simp
      · rw [dif_neg hcap]
        obtain ⟨ha, hb⟩ := ih (j + 1)
          (P.setPre (P.analyzeBody e pre)
            (P.refineOp j pre (P.gatherPre (P.analyzeBody e pre))))
          (P.refineOp j pre (P.gatherPre (P.analyzeBody e pre))) (by omega) (by omega)
        constructor
        · show (descendingLoop P (j + 1)
            (P.setPre (P.analyzeBody e pre)
              (P.refineOp j pre (P.gatherPre (P.analyzeBody e pre))))
            (P.refineOp j pre (P.gatherPre (P.analyzeBody e pre)))).iters + 1
              ≤ k + 1 + 1
          omega
        · show (descendingLoop P (j + 1)
            (P.setPre (P.analyzeBody e pre)
              (P.refineOp j pre (P.gatherPre (P.analyzeBody e pre))))
            (P.refineOp j pre (P.gatherPre (P.analyzeBody e pre)))).refines + 1
              ≤ k + 1
          omega

/-- C6: the decreasing (narrowing) loop stops immediately (one iteration, no
refine step) as soon as pre is below the gathered new pre, and in every case
performs at most narrowing_iterations refine steps and at most
narrowing_iterations + 1 iterations in total. -/
theorem c6_narrowing_terminates {A E : Type} (P : NarrowCfg A E) (e : E) (pre : A) :
    (descendingLoop P 1 e pre).iters ≤ P.nIters + 1 ∧
    (descendingLoop P 1 e pre).refines ≤ P.nIters ∧
    (P.leq pre (P.gatherPre (P.analyzeBody e pre)) = true →
      (descendingLoop P 1 e pre).iters = 1 ∧
      (descendingLoop P 1 e pre).refines = 0) := by
  refine ⟨?_, ?_, ?_⟩
  · have := (descendingLoop_bounds P P.nIters 1 e pre (by omega) (by omega)).1
    omega
  · have := (descendingLoop_bounds P P.nIters 1 e pre (by omega) (by omega)).2
    omega
  · intro hs
    unfold descendingLoop
    rw [if_pos hs]
    exact ⟨rfl, rfl⟩

/-- A concrete narrowing configuration over natural numbers whose refinement
never stabilizes, so the loop runs into the iteration cap. -/
def natNarrowCfg : NarrowCfg Nat Nat where
  analyzeBody := fun e _ => e
  gatherPre := fun _ => 0
  leq := fun a b => a ≤ b
  refineOp := fun _ a _ => a + 1
  setPre := fun e _ => e
  nIters := 2

/-- C6 witness: the bounds of the narrowing loop evaluated at a concrete
configuration, including the early-stop case at pre = 0. -/
theorem c6_narrowing_terminates_witness :
    (descendingLoop natNarrowCfg 1 0 5).iters ≤ natNarrowCfg.nIters + 1 ∧
    (descendingLoop natNarrowCfg 1 0 5).refines ≤ natNarrowCfg.nIters ∧
    (descendingLoop natNarrowCfg 1 0 0).iters = 1 :=
  ⟨(c6_narrowing_terminates natNarrowCfg 0 5).1,
   (c6_narrowing_terminates natNarrowCfg 0 5).2.1,
   ((c6_narrowing_terminates natNarrowCfg 0 0).2.2 (by decide)).1⟩

/-!
The term-equivalence (anti-unification) domain, ikos::anti_unif in
term_equiv.hpp.  Program variable names and proxy variable names are both
modelled as natural numbers; the proxy-name allocator
(cfg::var_factory_impl::StrVarAlloc_col, not part of the sources) is modelled
from the spec as a monotone counter whose next() yields a fresh name.
boost flat_map containers are modelled as association lists with unique keys
(lookup finds the first matching key, erasure removes the key, insertion
replaces an existing binding); only the iteration order differs from the
sorted C++ containers, which none of the proved statements depend on.
-/

/-- Extended integer bounds (ikos bound<Number>). -/
inductive EBound where
  | ninf
  | fin (n : Int)
  | pinf
deriving DecidableEq, Repr

/-- Intervals of the term domain interface (ikos interval<Number>): bottom or
a pair of bounds; interval_t::top() is the pair of infinities. -/
inductive Itvl where
  | botI
  | mkI (lb ub : EBound)
deriving DecidableEq, Repr

def Itvl.topI : Itvl := .mkI .ninf .pinf

/-- Constraint kinds of linear_constraint (equality, disequation,
inequality, strict inequality). -/
inductive CstKind where
  | ceq
  | cneq
  | cle
  | clt
deriving DecidableEq, Repr

/-- A linear expression over program variables: a constant plus a list of
coefficient-times-variable terms. -/
structure LinExp where
  cst : Int
  terms : List (Int × Nat)
deriving DecidableEq, Repr

/-- A linear constraint over program variables. -/
structure LinCst where
  exp : LinExp
  kind : CstKind
deriving DecidableEq, Repr

/-- A linear expression over proxy (base-domain) variables. -/
structure DLinExp where
  cst : Int
  terms : List (Int × Nat)
deriving DecidableEq, Repr

/-- A linear constraint over proxy variables. -/
structure DLinCst where
  exp : DLinExp
  kind : CstKind
deriving DecidableEq, Repr

/-- One entry of the term table: a free-variable sentinel (fresh_var), a
constant, or a binary functor application over two earlier term ids.
Modelled from the spec (section 4.1 Term Table): term_expr.hpp is not among
the sources. -/
inductive TermDef where
  | fvar
  | cnst (n : Int)
  | app (op : TOp) (a b : Nat)
deriving DecidableEq, Repr

/-- The hash-consed term table; a TermId is an index into defs.  Modelled
from the spec (section 4.1): terms are never deleted, at most one Const per
number and one App per (op, a, b) triple exist, depth is 0 for leaves and one
plus the maximum child depth for applications, and parents(t) is the set of
TermIds whose App arguments include t. -/
structure TermTable where
  defs : List TermDef
deriving DecidableEq, Repr

def TermTable.size (tbl : TermTable) : Nat := tbl.defs.length

def TermTable.getTerm (tbl : TermTable) (t : Nat) : TermDef :=
  tbl.defs.getD t .fvar

/-- term_table::fresh_var: allocate a new free-variable sentinel term. -/
def TermTable.freshVar (tbl : TermTable) : Nat × TermTable :=
  (tbl.defs.length, ⟨tbl.defs ++ [.fvar]⟩)

/-- term_table::find_const: hash lookup of the constant term for n. -/
def TermTable.findConst (tbl : TermTable) (n : Int) : Option Nat :=
  tbl.defs.findIdx? (fun d => d = .cnst n)

/-- term_table::make_const: the constant term for n, created if absent. -/
def TermTable.makeConst (tbl : TermTable) (n : Int) : Nat × TermTable :=
  match tbl.findConst n with
  | some t => (t, tbl)
  | none => (tbl.defs.length, ⟨tbl.defs ++ [.cnst n]⟩)

/-- term_table::find_ftor: hash lookup of the App term for (op, a, b). -/
def TermTable.findFtor (tbl : TermTable) (op : TOp) (a b : Nat) : Option Nat :=
  tbl.defs.findIdx? (fun d => d = .app op a b)

/-- term_table::apply_ftor: create the App term for (op, a, b), registering
the arguments as children (parents are derived from defs). -/
def TermTable.applyFtor (tbl : TermTable) (op : TOp) (a b : Nat) : Nat × TermTable :=
  (tbl.defs.length, ⟨tbl.defs ++ [.app op a b]⟩)

/-- Depth of a term, with explicit recursion fuel; for tables built through
fresh_var, make_const and apply_ftor the arguments of an App are smaller than
its id, so fuel equal to the table size always suffices. -/
def TermTable.depthFuel (tbl : TermTable) : Nat → Nat → Nat
  | 0, _ => 0
  | fuel + 1, t =>
    match tbl.getTerm t with
    | .app _ a b => 1 + max (tbl.depthFuel fuel a) (tbl.depthFuel fuel b)
    | _ => 0

/-- term_table::depth. -/
def TermTable.depth (tbl : TermTable) (t : Nat) : Nat :=
  tbl.depthFuel tbl.defs.length t

/-- term_table::parents: the ids whose App arguments include t. -/
def TermTable.parents (tbl : TermTable) (t : Nat) : List Nat :=
  (List.range tbl.defs.length).filter (fun i =>
    match tbl.getTerm i with
    | .app _ a b => a = t || b = t
    | _ => false)

/-- term::term_args: the argument list of an App term (empty otherwise). -/
def TermTable.termArgs (tbl : TermTable) (t : Nat) : List Nat :=
  match tbl.getTerm t with
  | .app _ a b => [a, b]
  | _ => []

/-- Base-domain interface consumed by anti_unif (the template parameter
Info::domain_t).  All proxy variables are natural numbers.  applyInv models
term::InverseOps::apply (inverse.hpp is not among the sources; per the spec,
it refines the argument proxies from the result proxy using the inverse of
the operation). -/
structure IkosDom (D : Type) where
  topD : D
  isBot : D → Bool
  leq : D → D → Bool
  setVar : Nat → EBound → EBound → D → D
  assignExp : Nat → DLinExp → D → D
  applyOp : TOp → Nat → Nat → Nat → D → D
  applyInv : TOp → Nat → Nat → Nat → D → D
  addCstD : DLinCst → D → D
  forget : Nat → D → D
  getItv : Nat → D → Itvl

/-- The state of anti_unif: the bottom flag, the term table, the base-domain
state over proxy variables, the proxy allocator counter, the variable-to-term
map, the term-to-proxy map, and the dirty set of changed terms. -/
structure AntiUnif (D : Type) where
  is_bottom : Bool
  ttbl : TermTable
  impl : D
  alloc : Nat
  var_map : List (Nat × Nat)
  term_map : List (Nat × Nat)
  changed_terms : List Nat
deriving DecidableEq, Repr

/-- Lookup in an association list (boost flat_map find). -/
def lookupKey (k : Nat) (m : List (Nat × Nat)) : Option Nat :=
  (m.find? (fun p => p.1 = k)).map (fun p => p.2)

/-- Erasure from an association list (boost flat_map erase; keys are unique
in a flat_map, so removing every pair with the key is the same operation). -/
def eraseKey (k : Nat) (m : List (Nat × Nat)) : List (Nat × Nat) :=
  m.filter (fun p => p.1 ≠ k)

/-- anti_unif(bool is_top) with is_top = true, i.e. anti_unif::top() and the
default constructor: empty maps, empty table, default base state. -/
def topAU {D : Type} (B : IkosDom D) : AntiUnif D :=
  { is_bottom := false, ttbl := ⟨[]⟩, impl := B.topD, alloc := 0,
    var_map := [], term_map := [], changed_terms := [] }

/-- anti_unif(bool is_top) with is_top = false, i.e. anti_unif::bottom(). -/
def bottomAU {D : Type} (B : IkosDom D) : AntiUnif D :=
  { is_bottom := true, ttbl := ⟨[]⟩, impl := B.topD, alloc := 0,
    var_map := [], term_map := [], changed_terms := [] }

/-- anti_unif::is_top: no variable bindings and not bottom. -/
def isTopAU {D : Type} (s : AntiUnif D) : Bool :=
  s.var_map.isEmpty && !s.is_bottom

/-- anti_unif::term_of_var: the term bound to a program variable, allocating
a fresh free-variable term when the variable is unbound. -/
def termOfVar {D : Type} (v : Nat) (s : AntiUnif D) : Nat × AntiUnif D :=
  match lookupKey v s.var_map with
  | some t => (t, s)
  | none =>
    let (t, tbl) := s.ttbl.freshVar
    (t, { s with ttbl := tbl, var_map := s.var_map ++ [(v, t)] })

/-- anti_unif::domvar_of_term: the proxy variable owned by a term, allocated
from the monotone counter when absent. -/
def domvarOfTerm {D : Type} (t : Nat) (s : AntiUnif D) : Nat × AntiUnif D :=
  match lookupKey t s.term_map with
  | some dv => (dv, s)
  | none =>
    (s.alloc, { s with term_map := s.term_map ++ [(t, s.alloc)], alloc := s.alloc + 1 })

/-- anti_unif::domvar_of_var. -/
def domvarOfVar {D : Type} (v : Nat) (s : AntiUnif D) : Nat × AntiUnif D :=
  let (t, s) := termOfVar v s
  domvarOfTerm t s

/-- anti_unif::rebind_var: erase any existing binding of x and bind it to
the given term. -/
def rebindVar {D : Type} (x : Nat) (t : Nat) (s : AntiUnif D) : AntiUnif D :=
  { s with var_map := eraseKey x s.var_map ++ [(x, t)] }

/-- anti_unif::build_const: the constant term for n, assigning the constant
to a fresh proxy in the base state when the term is new. -/
def buildConst {D : Type} (B : IkosDom D) (n : Int) (s : AntiUnif D) : Nat × AntiUnif D :=
  match s.ttbl.findConst n with
  | some t => (t, s)
  | none =>
    let (t, tbl) := s.ttbl.makeConst n
    let s := { s with ttbl := tbl }
    let (v, s) := domvarOfTerm t s
    (t, { s with impl := B.assignExp v { cst := n, terms := [] } s.impl })

/-- anti_unif::build_term: the App term for (op, ty, tz); when it is new,
apply the operation to the three proxies in the base state. -/
def buildTerm {D : Type} (B : IkosDom D) (op : TOp) (ty tz : Nat) (s : AntiUnif D) :
    Nat × AntiUnif D :=
  match s.ttbl.findFtor op ty tz with
  | some t => (t, s)
  | none =>
    let (tx, tbl) := s.ttbl.applyFtor op ty tz
    let s := { s with ttbl := tbl }
    let (v, s) := domvarOfTerm tx s
    let (vy, s) := domvarOfTerm ty s
    let (vz, s) := domvarOfTerm tz s
    (tx, { s with impl := B.applyOp op v vy vz s.impl })

/-- anti_unif::build_linterm: coefficient times variable. -/
def buildLinterm {D : Type} (B : IkosDom D) (c : Int) (v : Nat) (s : AntiUnif D) :
    Nat × AntiUnif D :=
  let (tc, s) := buildConst B c s
  let (tv, s) := termOfVar v s
  buildTerm B .mul tc tv s

/-- anti_unif::build_linexpr: fold the terms of a linear expression with
addition on top of its constant. -/
def buildLinexpr {D : Type} (B : IkosDom D) (e : LinExp) (s : AntiUnif D) :
    Nat × AntiUnif D :=
  let (t0, s0) := buildConst B e.cst s
  e.terms.foldl
    (fun (ts : Nat × AntiUnif D) (cv : Int × Nat) =>
      let (tl, s) := buildLinterm B cv.1 cv.2 ts.2
      buildTerm B .add ts.1 tl s)
    (t0, s0)

/-- anti_unif::term_of_itv: a constant term when both bounds are the same
finite number, otherwise a fresh free-variable term whose proxy is set to the
interval in the base state. -/
def termOfItv {D : Type} (B : IkosDom D) (lb ub : EBound) (s : AntiUnif D) :
    Nat × AntiUnif D :=
  match lb, ub with
  | .fin a, .fin b =>
    if a = b then buildConst B a s
    else
      let (t, tbl) := s.ttbl.freshVar
      let s := { s with ttbl := tbl }
      let (dv, s) := domvarOfTerm t s
      (t, { s with impl := B.setVar dv lb ub s.impl })
  | _, _ =>
    let (t, tbl) := s.ttbl.freshVar
    let s := { s with ttbl := tbl }
    let (dv, s) := domvarOfTerm t s
    (t, { s with impl := B.setVar dv lb ub s.impl })

/-- anti_unif::queue_push: extend the depth-indexed queue so that the level
of the term exists, then append the term to its level. -/
def queuePush (tbl : TermTable) (q : List (List Nat)) (t : Nat) : List (List Nat) :=
  let d := tbl.depth t
  let q := q ++ List.replicate (d + 1 - q.length) []
  q.set d (q.getD d [] ++ [t])

/-- State threaded through the two propagation passes of
anti_unif::normalize: the domain state, the accumulating tightened copy
d_prime of the base state, and the depth-indexed down queue. -/
structure NormSt (D : Type) where
  s : AntiUnif D
  dPrime : D
  queue : List (List Nat)

/-- anti_unif::eval_ftor_down: for an App term, refine the proxies of its
arguments from its own proxy by the inverse operation (InverseOps); proxies
are allocated on demand. -/
def evalFtorDown {D : Type} (B : IkosDom D) (t : Nat) (s : AntiUnif D) (dP : D) :
    AntiUnif D × D :=
  match s.ttbl.getTerm t with
  | .app op a b =>
    let (vt, s) := domvarOfTerm t s
    let (va, s) := domvarOfTerm a s
    let (vb, s) := domvarOfTerm b s
    (s, B.applyInv op vt va vb dP)
  | _ => (s, dP)

/-- anti_unif::eval_ftor: for an App term, re-apply the forward operation to
its proxy from the argument proxies. -/
def evalFtor {D : Type} (B : IkosDom D) (t : Nat) (s : AntiUnif D) (dP : D) :
    AntiUnif D × D :=
  match s.ttbl.getTerm t with
  | .app op a b =>
    let (vt, s) := domvarOfTerm t s
    let (va, s) := domvarOfTerm a s
    let (vb, s) := domvarOfTerm b s
    (s, B.applyOp op vt va vb dP)
  | _ => (s, dP)

/-- The enqueueing of one argument c of a tightened term in the downward
pass: if c is not yet dirty, mark it dirty and push it into the existing
level of its depth (the C++ pushes into queue[depth(c)] directly). -/
def downEnqueue (tbl : TermTable) (qc : List (List Nat) × List Nat) (c : Nat) :
    List (List Nat) × List Nat :=
  if c ∈ qc.2 then qc
  else
    let d := tbl.depth c
    let q := if d < qc.1.length then qc.1.set d (qc.1.getD d [] ++ [c]) else qc.1
    (q, qc.2 ++ [c])

/-- One term of the downward pass: tighten d_prime by the inverse operation;
when the result is no longer above the current base state, accept it into the
base state and enqueue the arguments. -/
def downStep {D : Type} (B : IkosDom D) (ns : NormSt D) (t : Nat) : NormSt D :=
  let e := evalFtorDown B t ns.s ns.dPrime
  if B.leq e.1.impl e.2 then { s := e.1, dPrime := e.2, queue := ns.queue }
  else
    let s := { e.1 with impl := e.2 }
    let qch := (s.ttbl.termArgs t).foldl (downEnqueue s.ttbl) (ns.queue, s.changed_terms)
    { s := { s with changed_terms := qch.2 }, dPrime := e.2, queue := qch.1 }

/-- One level of the downward pass. -/
def processDownLevel {D : Type} (B : IkosDom D) (ns : NormSt D) (d : Nat) : NormSt D :=
  (ns.queue.getD d []).foldl (downStep B) ns

/-- The downward pass: levels from the deepest down to level 1 (level 0
holds leaves and is not propagated further). -/
def downLevels {D : Type} (B : IkosDom D) (ns : NormSt D) : Nat → NormSt D
  | 0 => ns
  | d + 1 => downLevels B (processDownLevel B ns (d + 1)) d

/-- State of the upward pass: the domain state, d_prime, the set up_terms of
already-enqueued parents and the depth-indexed up queue. -/
structure UpSt (D : Type) where
  s : AntiUnif D
  dPrime : D
  upTerms : List Nat
  upQueue : List (List Nat)

/-- Enqueue a parent in the upward pass when it has not been seen yet
(queue_push extends the queue as needed). -/
def upEnqueue (tbl : TermTable) (uq : List Nat × List (List Nat)) (p : Nat) :
    List Nat × List (List Nat) :=
  if p ∈ uq.1 then uq else (uq.1 ++ [p], queuePush tbl uq.2 p)

/-- One term of the upward pass: re-apply the forward operation; when the
result is no longer above the current base state, accept it and enqueue the
parents. -/
def upStep {D : Type} (B : IkosDom D) (us : UpSt D) (t : Nat) : UpSt D :=
  let e := evalFtor B t us.s us.dPrime
  if B.leq e.1.impl e.2 then { us with s := e.1, dPrime := e.2 }
  else
    let s := { e.1 with impl := e.2 }
    let uu := (s.ttbl.parents t).foldl (upEnqueue s.ttbl) (us.upTerms, us.upQueue)
    { s := s, dPrime := e.2, upTerms := uu.1, upQueue := uu.2 }

/-- The upward pass: levels from 1 while the level index is below the queue
size; the queue can grow, but a level index never exceeds the maximal term
depth plus one, so fuel equal to the table size plus two always suffices. -/
def upLevels {D : Type} (B : IkosDom D) : Nat → UpSt D → Nat → UpSt D
  | 0, us, _ => us
  | fuel + 1, us, d =>
    if d < us.upQueue.length then
      upLevels B fuel ((us.upQueue.getD d []).foldl (upStep B) us) (d + 1)
    else us

/-- The final step of anti_unif::normalize: when the base state became
bottom, set the bottom flag of the domain. -/
def setBottomIfImplBot {D : Type} (B : IkosDom D) (s : AntiUnif D) : AntiUnif D :=
  if B.isBot s.impl then { s with is_bottom := true } else s

/-- anti_unif::normalize: build the depth queue from the dirty set, run the
downward pass (deepest level first), collect the parents of all dirty terms
and run the upward pass (shallowest level first, with the same d_prime),
clear the dirty set, and set the bottom flag when the base state became
bottom. -/
def normalizeAU {D : Type} (B : IkosDom D) (s : AntiUnif D) : AntiUnif D :=
  let q0 := s.changed_terms.foldl (queuePush s.ttbl) []
  let ns := downLevels B { s := s, dPrime := s.impl, queue := q0 } (q0.length - 1)
  let seed := ns.s.changed_terms.foldl
    (fun uq t => (ns.s.ttbl.parents t).foldl (upEnqueue ns.s.ttbl) uq) ([], [])
  let us := upLevels B (ns.s.ttbl.size + 2)
    { s := ns.s, dPrime := ns.dPrime, upTerms := seed.1, upQueue := seed.2 } 1
  setBottomIfImplBot B { us.s with changed_terms := [] }

/-- anti_unif::operator&: meet.  Bottom if either side is bottom; one side if
the other is top; otherwise (meet not implemented) the second operand. -/
def meetAU {D : Type} (B : IkosDom D) (a b : AntiUnif D) : AntiUnif D :=
  if a.is_bottom || b.is_bottom then bottomAU B
  else if isTopAU a then b
  else if isTopAU b then a
  else b

/-- anti_unif::operator&&: narrowing.  Bottom if either side is bottom; the
second operand if the first is top; otherwise (narrowing not implemented) the
first operand. -/
def narrowAU {D : Type} (B : IkosDom D) (a b : AntiUnif D) : AntiUnif D :=
  if a.is_bottom || b.is_bottom then bottomAU B
  else if isTopAU a then b
  else a

/-- anti_unif::operator-=: remove a variable from scope.  When it is bound to
t, erase the binding, forget t's proxy in the base state and erase t's entry
of the term map, regardless of other variables still bound to t. -/
def remVar {D : Type} (B : IkosDom D) (v : Nat) (s : AntiUnif D) : AntiUnif D :=
  match lookupKey v s.var_map with
  | none => s
  | some t =>
    let s := { s with var_map := eraseKey v s.var_map }
    let (dv, s) := domvarOfTerm t s
    let s := { s with impl := B.forget dv s.impl }
    { s with term_map := eraseKey t s.term_map }

/-- anti_unif::assign: no-op on bottom; otherwise build the term of the
linear expression and rebind the assigned variable to it. -/
def assignAU {D : Type} (B : IkosDom D) (x : Nat) (e : LinExp) (s : AntiUnif D) :
    AntiUnif D :=
  if s.is_bottom then s
  else
    let (tx, s) := buildLinexpr B e s
    rebindVar x tx s

/-- anti_unif::apply (x = y op z): no-op on bottom; otherwise build the App
term over the terms of y and z and rebind x to it. -/
def applyVarAU {D : Type} (B : IkosDom D) (op : TOp) (x y z : Nat) (s : AntiUnif D) :
    AntiUnif D :=
  if s.is_bottom then s
  else
    let (ty, s) := termOfVar y s
    let (tz, s) := termOfVar z s
    let (tx, s) := buildTerm B op ty tz s
    rebindVar x tx s

/-- anti_unif::apply (x = y op k): no-op on bottom; otherwise build the App
term over the term of y and the constant term of k and rebind x to it. -/
def applyConstAU {D : Type} (B : IkosDom D) (op : TOp) (x y : Nat) (k : Int)
    (s : AntiUnif D) : AntiUnif D :=
  if s.is_bottom then s
  else
    let (ty, s) := termOfVar y s
    let (tk, s) := buildConst B k s
    let (tx, s) := buildTerm B op ty tk s
    rebindVar x tx s

/-- anti_unif::rename_linear_expr: translate a linear expression over program
variables into one over proxies, allocating bindings and proxies on demand. -/
def renameLinExp {D : Type} (e : LinExp) (s : AntiUnif D) : DLinExp × AntiUnif D :=
  e.terms.foldl
    (fun (acc : DLinExp × AntiUnif D) (cv : Int × Nat) =>
      let (dv, s) := domvarOfVar cv.2 acc.2
      ({ acc.1 with terms := acc.1.terms ++ [(cv.1, dv)] }, s))
    ({ cst := e.cst, terms := [] }, s)

/-- anti_unif::rename_linear_cst. -/
def renameLinCst {D : Type} (c : LinCst) (s : AntiUnif D) : DLinCst × AntiUnif D :=
  let (de, s) := renameLinExp c.exp s
  ({ exp := de, kind := c.kind }, s)

/-- anti_unif::operator+= on a single linear constraint: rename the
constraint to proxy space and add it to the base state (with no bottom
check), mark the terms of all constrained variables dirty, and normalize. -/
def addCstAU {D : Type} (B : IkosDom D) (c : LinCst) (s : AntiUnif D) : AntiUnif D :=
  let (dc, s) := renameLinCst c s
  let s := { s with impl := B.addCstD dc s.impl }
  let s := c.exp.terms.foldl
    (fun (s : AntiUnif D) (cv : Int × Nat) =>
      let (t, s) := termOfVar cv.2 s
      if t ∈ s.changed_terms then s else { s with changed_terms := s.changed_terms ++ [t] })
    s
  normalizeAU B s

/-- anti_unif::set: rebind the variable to the term of the interval (with no
bottom check; the base state is written through term_of_itv). -/
def setAU {D : Type} (B : IkosDom D) (x : Nat) (lb ub : EBound) (s : AntiUnif D) :
    AntiUnif D :=
  let (t, s) := termOfItv B lb ub s
  rebindVar x t s

/-- anti_unif::operator[]: normalize, return the bottom interval on a bottom
state, the top interval for an unbound variable (without binding it), and
otherwise the base-state interval of the variable's proxy. -/
def getItvAU {D : Type} (B : IkosDom D) (x : Nat) (s : AntiUnif D) :
    Itvl × AntiUnif D :=
  let s := normalizeAU B s
  if s.is_bottom then (Itvl.botI, s)
  else
    match lookupKey x s.var_map with
    | none => (Itvl.topI, s)
    | some t =>
      let (dx, s) := domvarOfTerm t s
      (B.getItv dx s.impl, s)

/-- A concrete base domain for evaluating the term domain on concrete
inputs: the free domain that records every operation the term domain performs
on it.  Its order is syntactic equality, so it is never tightened and never
bottom. -/
inductive LogEntry where
  | addC (c : DLinCst)
  | assignE (v : Nat) (e : DLinExp)
  | applyE (op : TOp) (x y z : Nat)
  | applyInvE (op : TOp) (x y z : Nat)
  | setI (v : Nat) (lb ub : EBound)
  | forgetV (v : Nat)
deriving DecidableEq, Repr

def LogDom : IkosDom (List LogEntry) where
  topD := []
  isBot := fun _ => false
  leq := fun a b => decide (a = b)
  setVar := fun v lo hi d => .setI v lo hi :: d
  assignExp := fun v e d => .assignE v e :: d
  applyOp := fun op x y z d => .applyE op x y z :: d
  applyInv := fun op x y z d => .applyInvE op x y z :: d
  addCstD := fun c d => .addC c :: d
  forget := fun v d => .forgetV v :: d
  getItv := fun _ _ => Itvl.topI

/-- A reachable state in which program variables 0 and 1 are bound to the
same App term: built from top by x0 := x10 + x11 followed by x1 := x10 + x11
(the second apply finds the App term already hash-consed). -/
def sharedTermState : AntiUnif (List LogEntry) :=
  applyVarAU LogDom .add 1 10 11 (applyVarAU LogDom .add 0 10 11 (topAU LogDom))

/-- C2 counterexample: on the bottom state, operator+= on a linear constraint
and set on an interval both modify the underlying base-domain state impl (the
code has no bottom guard on either operation). -/
theorem c2_bottom_ops_touch_impl :
    (bottomAU LogDom).is_bottom = true ∧
    (addCstAU LogDom { exp := { cst := -5, terms := [(1, 0)] }, kind := .cle }
      (bottomAU LogDom)).impl ≠ (bottomAU LogDom).impl ∧
    (setAU LogDom 0 (EBound.fin 1) (EBound.fin 2) (bottomAU LogDom)).impl
      ≠ (bottomAU LogDom).impl := by
  decide

/-- C2 (amended): on a bottom state, assign and both arithmetic apply
overloads return the state unchanged, in particular neither observing nor
modifying impl; operator+= and set, however, modify impl even when is_bottom
is true. -/
theorem c2_bottom_guarded_ops {D : Type} (B : IkosDom D) (op : TOp)
    (x y z : Nat) (k : Int) (e : LinExp) (s : AntiUnif D)
    (h : s.is_bottom = true) :
    assignAU B x e s = s ∧ applyVarAU B op x y z s = s ∧
    applyConstAU B op x y k s = s := by
  unfold assignAU applyVarAU applyConstAU
  simp [h]

/-- C2 amended witness at the bottom state. -/
theorem c2_bottom_guarded_ops_witness :
    assignAU LogDom 0 { cst := 1, terms := [] } (bottomAU LogDom) = bottomAU LogDom ∧
    applyVarAU LogDom .add 0 1 2 (bottomAU LogDom) = bottomAU LogDom ∧
    applyConstAU LogDom .add 0 1 5 (bottomAU LogDom) = bottomAU LogDom :=
  c2_bottom_guarded_ops LogDom .add 0 1 2 5 { cst := 1, terms := [] }
    (bottomAU LogDom) rfl

/-- The var_map-to-term_map part of the state invariant: every term bound to
a program variable owns an entry of the term map. -/
def varTermMapConsistent {D : Type} (s : AntiUnif D) : Bool :=
  s.var_map.all (fun p => s.term_map.any (fun q => q.1 = p.2))

/-- C3 counterexample: in the reachable state where variables 0 and 1 share
the App term 2, the invariant holds; after removing variable 0 with
operator-=, variable 1 is still bound to term 2 but the term-map entry of
term 2 has been erased, so the invariant fails. -/
theorem c3_shared_term_unbinding :
    varTermMapConsistent sharedTermState = true ∧
    lookupKey 0 sharedTermState.var_map = some 2 ∧
    lookupKey 1 sharedTermState.var_map = some 2 ∧
    (1, 2) ∈ (remVar LogDom 0 sharedTermState).var_map ∧
    lookupKey 2 (remVar LogDom 0 sharedTermState).term_map = none ∧
    varTermMapConsistent (remVar LogDom 0 sharedTermState) = false := by
  decide

/-- C3 (amended): operator-=(v) preserves the invariant that every bound
term has a term-map entry, provided no other program variable is bound to
v's term; when another variable shares the term, that variable stays bound
to it while its term-map entry is erased. -/
theorem c3_remove_unshared_preserves {D : Type} (B : IkosDom D) (v : Nat)
    (s : AntiUnif D) (t : Nat)
    (hv : lookupKey v s.var_map = some t)
    (hsh : ∀ p ∈ s.var_map, p.1 ≠ v → p.2 ≠ t)
    (hinv : varTermMapConsistent s = true) :
    varTermMapConsistent (remVar B v s) = true := by
  unfold remVar
  rw [hv]
  simp only [varTermMapConsistent, List.all_eq_true] at hinv ⊢
  cases hq : lookupKey t s.term_map with
  | some dv =>
    simp only [domvarOfTerm, hq]
    intro p hp
    simp only [eraseKey, List.mem_filter, decide_eq_true_eq] at hp
    obtain ⟨hpm, hpv⟩ := hp
    have hpt : p.2 ≠ t := hsh p hpm hpv
    have := hinv p hpm
    simp only [List.any_eq_true, decide_eq_true_eq] at this ⊢
    obtain ⟨q, hqm, hqt⟩ := this
    exact ⟨q, by
      simp only [eraseKey, List.mem_filter, decide_eq_true_eq]
      exact ⟨hqm, by simpa [hqt] using hpt⟩, hqt⟩
  | none =>
    simp only [domvarOfTerm, hq]
    intro p hp
    simp only [eraseKey, List.mem_filter, decide_eq_true_eq] at hp
    obtain ⟨hpm, hpv⟩ := hp
    have hpt : p.2 ≠ t := hsh p hpm hpv
    have := hinv p hpm
    simp only [List.any_eq_true, decide_eq_true_eq] at this ⊢
    obtain ⟨q, hqm, hqt⟩ := this
    exact ⟨q, by
      simp only [eraseKey, List.mem_filter, List.mem_append, decide_eq_true_eq]
      exact ⟨Or.inl hqm, by simpa [hqt] using hpt⟩, hqt⟩

/-- C3 amended witness: removing a variable whose term is not shared. -/
theorem c3_remove_unshared_preserves_witness :
    varTermMapConsistent (remVar LogDom 10 (remVar LogDom 0
      (remVar LogDom 1 sharedTermState))) = true :=
  c3_remove_unshared_preserves LogDom 10
    (remVar LogDom 0 (remVar LogDom 1 sharedTermState)) 0
    (by decide) (by decide) (by decide)

/-- C4: for non-bottom, non-top operands the meet returns the second operand
and the narrowing returns the first. -/
theorem c4_meet_narrow_operands {D : Type} (B : IkosDom D) (a b : AntiUnif D)
    (ha : a.is_bottom = false) (hb : b.is_bottom = false)
    (hta : isTopAU a = false) (htb : isTopAU b = false) :
    meetAU B a b = b ∧ narrowAU B a b = a := by
  unfold meetAU narrowAU
  simp [ha, hb, hta, htb]

/-- C4 witness at a concrete non-bottom, non-top pair. -/
theorem c4_meet_narrow_operands_witness :
    meetAU LogDom (remVar LogDom 1 sharedTermState) sharedTermState
      = sharedTermState ∧
    narrowAU LogDom (remVar LogDom 1 sharedTermState) sharedTermState
      = remVar LogDom 1 sharedTermState :=
  c4_meet_narrow_operands LogDom (remVar LogDom 1 sharedTermState) sharedTermState
    (by decide) (by decide) (by decide) (by decide)

/-- A reachable state containing both the App term of variables 10 and 11,
the constant 5 and the App of term(10) with that constant: built from
sharedTermState by x2 := x10 + 5. -/
def hashConsedState : AntiUnif (List LogEntry) :=
  applyConstAU LogDom .add 2 10 5 sharedTermState

/-- C8: on a non-bottom state, when the App term that apply would create
already exists in the term table (for the variable-variable overload: the
App of the operation over the terms of y and z; for the variable-constant
overload additionally the constant term of k), apply leaves impl untouched
and only rebinds x in var_map to the existing term. -/
theorem c8_apply_hashconsed {D : Type} (B : IkosDom D) (op : TOp)
    (x y z : Nat) (k : Int) (ty tz tk tv tc : Nat) (s : AntiUnif D)
    (hb : s.is_bottom = false)
    (hy : lookupKey y s.var_map = some ty)
    (hz : lookupKey z s.var_map = some tz)
    (hf : s.ttbl.findFtor op ty tz = some tv)
    (hk : s.ttbl.findConst k = some tk)
    (hfk : s.ttbl.findFtor op ty tk = some tc) :
    applyVarAU B op x y z s = rebindVar x tv s ∧
    (applyVarAU B op x y z s).impl = s.impl ∧
    applyConstAU B op x y k s = rebindVar x tc s ∧
    (applyConstAU B op x y k s).impl = s.impl := by
  have h1 : applyVarAU B op x y z s = rebindVar x tv s := by
    unfold applyVarAU termOfVar buildTerm
    simp [hb, hy, hz, hf]
  have h2 : applyConstAU B op x y k s = rebindVar x tc s := by
    unfold applyConstAU termOfVar buildConst buildTerm
    simp [hb, hy, hk, hfk]
  refine ⟨h1, ?_, h2, ?_⟩
  · rw [h1]
    rfl
  · rw [h2]
    rfl

/-- C8 witness: in hashConsedState, x7 := x10 + x11 finds the App term 2 and
x7 := x10 + 5 finds the constant term 3 and the App term 4; impl is
untouched in both cases. -/
theorem c8_apply_hashconsed_witness :
    applyVarAU LogDom .add 7 10 11 hashConsedState
      = rebindVar 7 2 hashConsedState ∧
    (applyVarAU LogDom .add 7 10 11 hashConsedState).impl = hashConsedState.impl ∧
    applyConstAU LogDom .add 7 10 5 hashConsedState
      = rebindVar 7 4 hashConsedState ∧
    (applyConstAU LogDom .add 7 10 5 hashConsedState).impl = hashConsedState.impl :=
  c8_apply_hashconsed LogDom .add 7 10 11 5 0 1 3 2 4 hashConsedState
    (by decide) (by decide) (by decide) (by decide) (by decide) (by decide)

/-- The bottom-flag step keeps the dirty set, the variable map and the base
state unchanged. -/
theorem setBottomIfImplBot_fields {D : Type} (B : IkosDom D) (s : AntiUnif D) :
    (setBottomIfImplBot B s).changed_terms = s.changed_terms ∧
    (setBottomIfImplBot B s).var_map = s.var_map ∧
    (setBottomIfImplBot B s).impl = s.impl := by
  unfold setBottomIfImplBot
  by_cases h : B.isBot s.impl = true
  · rw [if_pos h]
    exact ⟨rfl, rfl, rfl⟩
  · rw [if_neg h]
    exact ⟨rfl, rfl, rfl⟩

/-- After the bottom-flag step, a bottom base state implies the bottom flag. -/
theorem setBottomIfImplBot_flag {D : Type} (B : IkosDom D) (s : AntiUnif D)
    (h : B.isBot (setBottomIfImplBot B s).impl = true) :
    (setBottomIfImplBot B s).is_bottom = true := by
  rw [(setBottomIfImplBot_fields B s).2.2] at h
  unfold setBottomIfImplBot
  rw [if_pos h]

/-- On a state whose bottom flag already reflects the base state, the
bottom-flag step is the identity. -/
theorem setBottomIfImplBot_id {D : Type} (B : IkosDom D) (s : AntiUnif D)
    (hb : B.isBot s.impl = true → s.is_bottom = true) :
    setBottomIfImplBot B s = s := by
  unfold setBottomIfImplBot
  by_cases h : B.isBot s.impl = true
  · rw [if_pos h]
    obtain ⟨ib, tt, im, al, vm, tm, ct⟩ := s
    have hib : ib = true := hb h
    subst hib
    rfl
  · rw [if_neg h]

/-- normalize leaves the dirty set empty. -/
theorem normalizeAU_changed_empty {D : Type} (B : IkosDom D) (s : AntiUnif D) :
    (normalizeAU B s).changed_terms = [] := by
  simp only [normalizeAU]
  rw [(setBottomIfImplBot_fields B _).1]

/-- After normalize, a bottom base state implies the bottom flag. -/
theorem normalizeAU_bottom_flag {D : Type} (B : IkosDom D) (s : AntiUnif D)
    (h : B.isBot (normalizeAU B s).impl = true) :
    (normalizeAU B s).is_bottom = true := by
  simp only [normalizeAU] at h ⊢
  exact setBottomIfImplBot_flag B _ h

/-- On a state with no dirty terms, both propagation passes of normalize are
empty and normalize is exactly the bottom-flag step. -/
theorem normalizeAU_empty_changed_eq {D : Type} (B : IkosDom D) (s : AntiUnif D)
    (hc : s.changed_terms = []) :
    normalizeAU B s = setBottomIfImplBot B s := by
  obtain ⟨ib, tt, im, al, vm, tm, ct⟩ := s
  have hc2 : ct = [] := hc
  subst hc2
  rfl

/-- C9: normalization is idempotent: after normalize the dirty set
changed_terms is empty, and a second normalize returns the state of the
first call unchanged (including the base state impl). -/
theorem c9_normalize_idempotent {D : Type} (B : IkosDom D) (s : AntiUnif D) :
    (normalizeAU B s).changed_terms = [] ∧
    normalizeAU B (normalizeAU B s) = normalizeAU B s := by
  refine ⟨normalizeAU_changed_empty B s, ?_⟩
  rw [normalizeAU_empty_changed_eq B _ (normalizeAU_changed_empty B s)]
  exact setBottomIfImplBot_id B _ (normalizeAU_bottom_flag B s)

/-- Allocating a proxy for a term does not touch the variable map. -/
theorem domvarOfTerm_var_map {D : Type} (t : Nat) (s : AntiUnif D) :
    (domvarOfTerm t s).2.var_map = s.var_map := by
  unfold domvarOfTerm
  cases h : lookupKey t s.term_map <;> rfl

/-- The inverse propagation of one term does not touch the variable map. -/
theorem evalFtorDown_var_map {D : Type} (B : IkosDom D) (t : Nat) (s : AntiUnif D) (dP : D) :
    (evalFtorDown B t s dP).1.var_map = s.var_map := by
  unfold evalFtorDown
  cases h : s.ttbl.getTerm t with
  | fvar => rfl
  | cnst n => rfl
  | app op a b =>
    show (domvarOfTerm b (domvarOfTerm a (domvarOfTerm t s).2).2).2.var_map = s.var_map
    rw [domvarOfTerm_var_map, domvarOfTerm_var_map, domvarOfTerm_var_map]

/-- The forward propagation of one term does not touch the variable map. -/
theorem evalFtor_var_map {D : Type} (B : IkosDom D) (t : Nat) (s : AntiUnif D) (dP : D) :
    (evalFtor B t s dP).1.var_map = s.var_map := by
  unfold evalFtor
  cases h : s.ttbl.getTerm t with
  | fvar => rfl
  | cnst n => rfl
  | app op a b =>
    show (domvarOfTerm b (domvarOfTerm a (domvarOfTerm t s).2).2).2.var_map = s.var_map
    rw [domvarOfTerm_var_map, domvarOfTerm_var_map, domvarOfTerm_var_map]

/-- A fold preserves any invariant its step preserves. -/
theorem foldlPreserve {α β : Type} (f : β → α → β) (P : β → Prop)
    (h : ∀ b a, P b → P (f b a)) : ∀ (l : List α) (b : β), P b → P (l.foldl f b) := by
  intro l
  induction l with
  | nil => intro b hb; exact hb
  | cons x xs ih => intro b hb; exact ih (f b x) (h b x hb)

/-- One step of the downward pass does not touch the variable map. -/
theorem downStep_var_map {D : Type} (B : IkosDom D) (ns : NormSt D) (t : Nat) :
    (downStep B ns t).s.var_map = ns.s.var_map := by
  simp only [downStep]
  split
  · exact evalFtorDown_var_map B t ns.s ns.dPrime
  · exact evalFtorDown_var_map B t ns.s ns.dPrime

/-- One level of the downward pass does not touch the variable map. -/
theorem processDownLevel_var_map {D : Type} (B : IkosDom D) (ns : NormSt D) (d : Nat) :
    (processDownLevel B ns d).s.var_map = ns.s.var_map := by
  exact foldlPreserve (downStep B) (fun x => x.s.var_map = ns.s.var_map)
    (fun b a hb => by
      show (downStep B b a).s.var_map = ns.s.var_map
      rw [downStep_var_map]
      exact hb) _ ns rfl

/-- The downward pass does not touch the variable map. -/
theorem downLevels_var_map {D : Type} (B : IkosDom D) :
    ∀ (d : Nat) (ns : NormSt D), (downLevels B ns d).s.var_map = ns.s.var_map := by
  intro d
  induction d with
  | zero => intro ns; rfl
  | succ d ih =>
    intro ns
    rw [show downLevels B ns (d + 1) = downLevels B (processDownLevel B ns (d + 1)) d
      from rfl]
    rw [ih, processDownLevel_var_map]

/-- One step of the upward pass does not touch the variable map. -/
theorem upStep_var_map {D : Type} (B : IkosDom D) (us : UpSt D) (t : Nat) :
    (upStep B us t).s.var_map = us.s.var_map := by
  simp only [upStep]
  split
  · exact evalFtor_var_map B t us.s us.dPrime
  · exact evalFtor_var_map B t us.s us.dPrime

/-- The upward pass does not touch the variable map. -/
theorem upLevels_var_map {D : Type} (B : IkosDom D) :
    ∀ (fuel : Nat) (us : UpSt D) (d : Nat),
      (upLevels B fuel us d).s.var_map = us.s.var_map := by
  intro fuel
  induction fuel with
  | zero => intro us d; rfl
  | succ fuel ih =>
    intro us d
    rw [show upLevels B (fuel + 1) us d
        = if d < us.upQueue.length then
            upLevels B fuel ((us.upQueue.getD d []).foldl (upStep B) us) (d + 1)
          else us
      from rfl]
    by_cases h : d < us.upQueue.length
    · rw [if_pos h, ih]
      exact foldlPreserve (upStep B) (fun x => x.s.var_map = us.s.var_map)
        (fun b a hb => by
          show (upStep B b a).s.var_map = us.s.var_map
          rw [upStep_var_map]
          exact hb) _ us rfl
    · rw [if_neg h]

/-- normalize does not touch the variable map. -/
theorem normalizeAU_var_map {D : Type} (B : IkosDom D) (s : AntiUnif D) :
    (normalizeAU B s).var_map = s.var_map := by
  simp only [normalizeAU]
  rw [(setBottomIfImplBot_fields B _).2.1]
  show (upLevels B _ _ 1).s.var_map = s.var_map
  rw [upLevels_var_map]
  show (downLevels B _ _).s.var_map = s.var_map
  rw [downLevels_var_map]

/-- C10: the interval query on a variable with no binding returns the top
interval on a state that does not normalize to bottom, and adds no binding
for the variable; on a state that is bottom after normalization it returns
the bottom interval. -/
theorem c10_unbound_query {D : Type} (B : IkosDom D) (x : Nat) (s : AntiUnif D) :
    ((normalizeAU B s).is_bottom = false → lookupKey x s.var_map = none →
      (getItvAU B x s).1 = Itvl.topI ∧
      lookupKey x (getItvAU B x s).2.var_map = none) ∧
    ((normalizeAU B s).is_bottom = true → (getItvAU B x s).1 = Itvl.botI) := by
  constructor
  · intro hnb hx
    have hvm : lookupKey x (normalizeAU B s).var_map = none := by
      rw [normalizeAU_var_map]
      exact hx
    have h1 : getItvAU B x s = (Itvl.topI, normalizeAU B s) := by
      simp only [getItvAU]
      rw [if_neg (by rw [hnb]; exact Bool.false_ne_true), hvm]
    rw [h1]
    exact ⟨rfl, hvm⟩
  · intro hb
    simp only [getItvAU]
    rw [if_pos hb]

/-- C10 witness: an unbound variable in a reachable non-bottom state, and the
bottom state. -/
theorem c10_unbound_query_witness :
    ((getItvAU LogDom 5 sharedTermState).1 = Itvl.topI ∧
      lookupKey 5 (getItvAU LogDom 5 sharedTermState).2.var_map = none) ∧
    (getItvAU LogDom 5 (bottomAU LogDom)).1 = Itvl.botI :=
  ⟨(c10_unbound_query LogDom 5 sharedTermState).1 (by decide) (by decide),
   (c10_unbound_query LogDom 5 (bottomAU LogDom)).2 (by decide)⟩
